import Mathlib

/-!
# Verification of `build_data.py` (portfolio-builder data pipeline)

Shallow embedding of the single-file pipeline `src/build_data.py`:
fetch (modelled as an input price table) → transform (monthly percentage
returns) → aggregate (pairwise Pearson correlations) → serialize (output
document).  Prices and returns are modelled as exact rationals; Pearson
coefficients, which involve a square root, live in `ℝ`.
-/

namespace PortfolioBuilder

/-- A row label of the downloaded monthly dataframe: the year-month part
(`d.strftime("%Y-%m")` in the script) plus the rest of the timestamp.
Rows are aligned on whole labels, serialized dates use only `ym`. -/
structure MDate where
  ym : String
  rest : String
deriving DecidableEq

/-- The `Close` block of the dataframe returned by `yf.download`: a common
monthly index and one column of optional closing prices per symbol
(`none` models a NaN cell; an absent column models a `KeyError`). -/
structure PriceTable where
  dates : List MDate
  close : List (String × List (Option ℚ))

/-- `df.empty`: a pandas frame is empty when an axis has length 0. -/
def PriceTable.isEmpty (t : PriceTable) : Bool :=
  t.dates.isEmpty || t.close.isEmpty

/-- `df["Close"][sym]`: column lookup; `none` models the `KeyError` branch. -/
def PriceTable.col (t : PriceTable) (sym : String) : Option (List (Option ℚ)) :=
  t.close.lookup sym

/-- `series.dropna()`: keep the rows whose price is present, with their dates. -/
def dropna (dates : List MDate) (col : List (Option ℚ)) : List (MDate × ℚ) :=
  (dates.zip col).filterMap fun dp => dp.2.map fun p => (dp.1, p)

/-- `series.pct_change().dropna() * 100`: consecutive percentage changes of a
cleaned price series, labelled by the later month; the leading NaN of
`pct_change` is dropped. -/
def pctReturns (xs : List (MDate × ℚ)) : List (MDate × ℚ) :=
  (xs.zip xs.tail).map fun pq => (pq.2.1, (pq.2.2 / pq.1.2 - 1) * 100)

/-- Python's `round(x, n)` on our exact rationals (ties modelled half-up). -/
def pyRound (n : ℕ) (x : ℚ) : ℚ :=
  (round (x * 10 ^ n) : ℤ) / 10 ^ n

/-- `round(float(x), n)` for the real-valued correlation coefficients. -/
noncomputable def pyRoundR (n : ℕ) (x : ℝ) : ℝ :=
  (round (x * 10 ^ n) : ℤ) / 10 ^ n

/-- The static `TICKERS` registry: symbol ↦ (display name, sector). -/
def TICKERS : List (String × String × String) :=
  [("AAPL", "Apple", "Technology"),
   ("MSFT", "Microsoft", "Technology"),
   ("GOOGL", "Alphabet", "Technology"),
   ("AMZN", "Amazon", "Technology"),
   ("TSLA", "Tesla", "Technology"),
   ("META", "Meta", "Technology"),
   ("NVDA", "NVIDIA", "Technology"),
   ("CRM", "Salesforce", "Technology"),
   ("AMD", "AMD", "Technology"),
   ("INTC", "Intel", "Technology"),
   ("ORCL", "Oracle", "Technology"),
   ("ADBE", "Adobe", "Technology"),
   ("JPM", "JPMorgan Chase", "Financials"),
   ("BAC", "Bank of America", "Financials"),
   ("GS", "Goldman Sachs", "Financials"),
   ("V", "Visa", "Financials"),
   ("MA", "Mastercard", "Financials"),
   ("BRK-B", "Berkshire Hathaway", "Financials"),
   ("JNJ", "Johnson & Johnson", "Healthcare"),
   ("PFE", "Pfizer", "Healthcare"),
   ("UNH", "UnitedHealth", "Healthcare"),
   ("LLY", "Eli Lilly", "Healthcare"),
   ("MRK", "Merck", "Healthcare"),
   ("ABBV", "AbbVie", "Healthcare"),
   ("XOM", "ExxonMobil", "Energy"),
   ("CVX", "Chevron", "Energy"),
   ("COP", "ConocoPhillips", "Energy"),
   ("DUK", "Duke Energy", "Utilities"),
   ("NEE", "NextEra Energy", "Utilities"),
   ("SO", "Southern Co", "Utilities"),
   ("AEP", "American Electric Power", "Utilities"),
   ("KO", "Coca-Cola", "Consumer Staples"),
   ("PEP", "PepsiCo", "Consumer Staples"),
   ("PG", "Procter & Gamble", "Consumer Staples"),
   ("WMT", "Walmart", "Consumer Staples"),
   ("COST", "Costco", "Consumer Staples"),
   ("MCD", "McDonald's", "Consumer Discretionary"),
   ("DIS", "Disney", "Consumer Discretionary"),
   ("NFLX", "Netflix", "Consumer Discretionary"),
   ("NKE", "Nike", "Consumer Discretionary"),
   ("SBUX", "Starbucks", "Consumer Discretionary"),
   ("HD", "Home Depot", "Consumer Discretionary"),
   ("LOW", "Lowe's", "Consumer Discretionary"),
   ("BA", "Boeing", "Industrials"),
   ("CAT", "Caterpillar", "Industrials"),
   ("GE", "GE Aerospace", "Industrials"),
   ("UPS", "UPS", "Industrials"),
   ("RTX", "RTX Corp", "Industrials"),
   ("AMT", "American Tower", "Real Estate"),
   ("PLD", "Prologis", "Real Estate"),
   ("T", "AT&T", "Communications"),
   ("VZ", "Verizon", "Communications"),
   ("TMUS", "T-Mobile", "Communications"),
   ("LIN", "Linde", "Materials"),
   ("APD", "Air Products", "Materials"),
   ("QQQ", "Nasdaq 100 ETF", "ETF"),
   ("IWM", "Russell 2000 ETF", "ETF"),
   ("GLD", "Gold ETF", "ETF"),
   ("TLT", "20+ Year Treasury ETF", "ETF"),
   ("BND", "Total Bond ETF", "ETF"),
   ("VNQ", "Real Estate ETF", "ETF"),
   ("XLE", "Energy Select ETF", "ETF")]

/-- `ticker_list = list(TICKERS.keys())`. -/
def tickerList : List String := TICKERS.map Prod.fst

/-- Benchmark processing (`df["Close"]["SPY"]` → clean → returns). A missing
`SPY` column raises, which the script turns into a fatal exit. -/
def processSpy (t : PriceTable) : Option (List (MDate × ℚ)) :=
  (t.col "SPY").map fun c => pctReturns (dropna t.dates c)

/-- Outcome of the per-ticker `try` block: the symbol is absent from the data
(`KeyError` → "NOT IN DATA"), has fewer than 24 clean observations
("only n months, skipping"), or yields its unrounded return series. -/
inductive TickerResult where
  | notInData
  | tooShort (months : ℕ)
  | ok (ret : List (MDate × ℚ))
deriving DecidableEq

/-- The body of the per-ticker loop for one symbol. -/
def processTicker (t : PriceTable) (sym : String) : TickerResult :=
  match t.col sym with
  | none => .notInData
  | some c =>
    if (dropna t.dates c).length < 24 then .tooShort (dropna t.dates c).length
    else .ok (pctReturns (dropna t.dates c))

/-- Whether the per-ticker loop skips `sym` (any of its failure branches). -/
def symFailed (t : PriceTable) (sym : String) : Bool :=
  match processTicker t sym with
  | .ok _ => false
  | _ => true

/-- One value of the `ticker_data` dict. -/
structure TickerOut where
  name : String
  sector : String
  dates : List String
  returns : List ℚ
deriving DecidableEq

/-- The rounded return values serialized for a symbol. -/
def roundedReturns (ret : List (MDate × ℚ)) : List ℚ :=
  ret.map fun p => pyRound 4 p.2

/-- The `"%Y-%m"` date labels serialized for a symbol. -/
def ymDates (ret : List (MDate × ℚ)) : List String :=
  ret.map fun p => p.1.ym

/-- `ticker_data`: registry-ordered entries for the symbols whose processing
succeeded. -/
def tickerData (t : PriceTable) : List (String × TickerOut) :=
  TICKERS.filterMap fun e =>
    match processTicker t e.1 with
    | .ok ret => some (e.1, ⟨e.2.1, e.2.2, ymDates ret, roundedReturns ret⟩)
    | _ => none

/-- `returns_dict`: the unrounded return series kept for correlation. -/
def returnsDict (t : PriceTable) : List (String × List (MDate × ℚ)) :=
  TICKERS.filterMap fun e =>
    match processTicker t e.1 with
    | .ok ret => some (e.1, ret)
    | _ => none

/-- `valid_tickers = list(returns_dict.keys())`. -/
def validTickers (t : PriceTable) : List String :=
  (returnsDict t).map Prod.fst

/-! ## Pearson correlation

`ret_df.corr()` (and `Series.corr`) computes, for each pair of columns, the
Pearson coefficient over the rows where both columns are non-NaN
(pairwise-complete observations): r = Σ dx·dy / √(Σ dx² · Σ dy²) with
deviations from the means of the overlapping rows.  The result is NaN
exactly when one of the two deviation sums of squares vanishes (constant or
too-short overlap), which is the `pd.notna` gate of the script. -/

/-- Mean of a list of rationals (`0` for the empty list, as `0 / 0 = 0`). -/
def mean (l : List ℚ) : ℚ := l.sum / l.length

/-- Center both coordinates of the overlapping observations at their means. -/
def centered (ps : List (ℚ × ℚ)) : List (ℚ × ℚ) :=
  ps.map fun p => (p.1 - mean (ps.map Prod.fst), p.2 - mean (ps.map Prod.snd))

/-- Σ dx·dy over the centered observations. -/
def covXY (ps : List (ℚ × ℚ)) : ℚ := ((centered ps).map fun p => p.1 * p.2).sum

/-- Σ dx² over the centered observations. -/
def varX (ps : List (ℚ × ℚ)) : ℚ := ((centered ps).map fun p => p.1 * p.1).sum

/-- Σ dy² over the centered observations. -/
def varY (ps : List (ℚ × ℚ)) : ℚ := ((centered ps).map fun p => p.2 * p.2).sum

/-- `pd.notna(corr)`: the coefficient is a number iff both deviation sums of
squares are positive. -/
def corrDefined (ps : List (ℚ × ℚ)) : Bool :=
  decide (0 < varX ps) && decide (0 < varY ps)

/-- The Pearson coefficient itself (a real number, because of the root). -/
noncomputable def pearson (ps : List (ℚ × ℚ)) : ℝ :=
  (covXY ps : ℝ) / Real.sqrt ((varX ps : ℝ) * (varY ps : ℝ))

/-- Align two labelled series on their common row labels, in the label order
of the first series: the rows kept by `concat(..., axis=1).dropna()` and by
the pairwise-complete masking inside `DataFrame.corr`.  (Sums over the
result do not depend on row order, so one fixed order is adequate.) -/
def align (xs ys : List (MDate × ℚ)) : List (ℚ × ℚ) :=
  xs.filterMap fun dx => (ys.lookup dx.1).map fun y => (dx.2, y)

/-- All ordered pairs `(l[i], l[j])` with `i < j`, in the order of the
script's nested loop (outer index `i`, inner index `j`). -/
def upperPairs {α : Type} : List α → List (α × α)
  | [] => []
  | x :: xs => (xs.map fun y => (x, y)) ++ upperPairs xs

/-- The upper-triangle correlation entries, tagged with their aligned
observation lists (the value later attached to a key is a pure function of
these observations). -/
def upperAligned (t : PriceTable) : List ((String × String) × List (ℚ × ℚ)) :=
  (upperPairs (returnsDict t)).filterMap fun pq =>
    if corrDefined (align pq.1.2 pq.2.2) then
      some ((pq.1.1, pq.2.1), align pq.1.2 pq.2.2)
    else none

/-- The benchmark correlation entries: for each valid ticker, align SPY's
return series with the ticker's; keep the pair when the overlap exceeds 12
rows and the coefficient is a number. -/
def spyAligned (rs : List (MDate × ℚ)) (t : PriceTable) :
    List ((String × String) × List (ℚ × ℚ)) :=
  (returnsDict t).filterMap fun e =>
    if 12 < (align rs e.2).length then
      if corrDefined (align rs e.2) then some (("SPY", e.1), align rs e.2) else none
    else none

/-- All correlation entries with their aligned observations, in insertion
order of the `correlations` dict. -/
def corrAligned (t : PriceTable) (rs : List (MDate × ℚ)) :
    List ((String × String) × List (ℚ × ℚ)) :=
  upperAligned t ++ spyAligned rs t

/-- The keys of the `correlations` dict, as (left symbol, right symbol). -/
def corrKeys (t : PriceTable) (rs : List (MDate × ℚ)) : List (String × String) :=
  (corrAligned t rs).map Prod.fst

/-- The `correlations` dict: each key with its rounded Pearson coefficient. -/
noncomputable def correlationsOf (t : PriceTable) (rs : List (MDate × ℚ)) :
    List ((String × String) × ℝ) :=
  (corrAligned t rs).map fun e => (e.1, pyRoundR 3 (pearson e.2))

/-- The assembled output document (the JSON object written to
`portfolio_data.json`). -/
structure OutputDoc where
  generated : String
  spyDates : List String
  spyReturns : List ℚ
  tickers : List (String × TickerOut)
  correlations : List ((String × String) × ℝ)

/-- Result of a run: `fatal` models `sys.exit(1)` (non-zero exit, no file
written); `success` carries the document serialized with exit code 0. -/
inductive RunResult where
  | fatal
  | success (doc : OutputDoc)

/-- The whole pipeline after the fetch: abort on an empty frame, abort if the
benchmark processing raises, otherwise build and write the document.
`today` is the `datetime.now().isoformat()[:10]` stamp. -/
noncomputable def run (today : String) (t : PriceTable) : RunResult :=
  if t.isEmpty then .fatal
  else
    match processSpy t with
    | none => .fatal
    | some rs =>
      .success
        { generated := today
          spyDates := ymDates rs
          spyReturns := roundedReturns rs
          tickers := tickerData t
          correlations := correlationsOf t rs }

/-- The document part of a run result. -/
def RunResult.docPart : RunResult → Option OutputDoc
  | .fatal => none
  | .success doc => some doc

/-- The document with its `generated` stamp blanked. -/
def stripGenerated (d : OutputDoc) : OutputDoc :=
  { d with generated := "" }

/-! ## Spec-side definitions

These two definitions follow the wording of the specification, not the
script, and are compared with the script's values in the refinement
claims. -/

/-- Modelled from the spec (glossary): the observations "present in both
series being compared", pairing each of the first series' values with the
value the second series holds at the same period. -/
def sharedObs (xs ys : List (MDate × ℚ)) : List (ℚ × ℚ) :=
  xs.filterMap fun p =>
    match ys.find? fun q => q.1 == p.1 with
    | some q => some (p.2, q.2)
    | none => none

/-- Modelled from the spec: the Pearson correlation coefficient of two
series over their shared periods, written as covariance over the product of
the two root sums of squares. -/
noncomputable def specCorr (xs ys : List (MDate × ℚ)) : ℝ :=
  (covXY (sharedObs xs ys) : ℝ) /
    (Real.sqrt (varX (sharedObs xs ys) : ℝ) * Real.sqrt (varY (sharedObs xs ys) : ℝ))

/-- The return series a key component refers to: the benchmark's series for
`"SPY"`, otherwise the series stored for the symbol in `returns_dict`. -/
def symSeries (t : PriceTable) (rs : List (MDate × ℚ)) (sym : String) :
    List (MDate × ℚ) :=
  if sym = "SPY" then rs else ((returnsDict t).lookup sym).getD []

/-- What the spec asserts of a serialized return series derived from the
cleaned price series `cs`: one entry per consecutive pair of prices, each
return `(price[t]/price[t-1] - 1) * 100` rounded to 4 decimals and labelled
by month `t`'s year-month string. -/
def returnSeriesSpec (cs : List (MDate × ℚ)) (dates : List String)
    (returns : List ℚ) : Prop :=
  returns.length = cs.length - 1 ∧ dates.length = cs.length - 1 ∧
  ∀ i p q, cs[i]? = some p → cs[i + 1]? = some q →
    returns[i]? = some (pyRound 4 ((q.2 / p.2 - 1) * 100)) ∧
    dates[i]? = some q.1.ym

/-- The `dates` and `returns` arrays are the two views of one underlying
return series, index by index: at every position `i` the date is the month
label of the `i`-th return entry and the return is that same entry's
rounded value — so the date at each index labels the return at the same
index. -/
def datesLabelReturns (ret : List (MDate × ℚ)) (dates : List String)
    (returns : List ℚ) : Prop :=
  dates.length = ret.length ∧ returns.length = ret.length ∧
  ∀ (i : ℕ) (p : MDate × ℚ), ret[i]? = some p →
    dates[i]? = some p.1.ym ∧ returns[i]? = some (pyRound 4 p.2)

/-! ## Concrete sample inputs

A 25-month table with the benchmark and two registry symbols carrying the
same alternating price column (so every pair correlates perfectly), and the
rest of the registry absent; used to instantiate the theorems below. -/

/-- 25 distinct month labels. -/
def wDates : List MDate :=
  [⟨"m01", ""⟩, ⟨"m02", ""⟩, ⟨"m03", ""⟩, ⟨"m04", ""⟩, ⟨"m05", ""⟩,
   ⟨"m06", ""⟩, ⟨"m07", ""⟩, ⟨"m08", ""⟩, ⟨"m09", ""⟩, ⟨"m10", ""⟩,
   ⟨"m11", ""⟩, ⟨"m12", ""⟩, ⟨"m13", ""⟩, ⟨"m14", ""⟩, ⟨"m15", ""⟩,
   ⟨"m16", ""⟩, ⟨"m17", ""⟩, ⟨"m18", ""⟩, ⟨"m19", ""⟩, ⟨"m20", ""⟩,
   ⟨"m21", ""⟩, ⟨"m22", ""⟩, ⟨"m23", ""⟩, ⟨"m24", ""⟩, ⟨"m25", ""⟩]

/-- 25 alternating prices, no missing cell. -/
def wPrices : List (Option ℚ) :=
  [some 1, some 2, some 1, some 2, some 1, some 2, some 1, some 2, some 1,
   some 2, some 1, some 2, some 1, some 2, some 1, some 2, some 1, some 2,
   some 1, some 2, some 1, some 2, some 1, some 2, some 1]

/-- The sample table: SPY plus the registry symbols AAPL and GOOGL. -/
def wTable : PriceTable :=
  ⟨wDates, [("SPY", wPrices), ("AAPL", wPrices), ("GOOGL", wPrices)]⟩

/-- The benchmark return series of the sample table (24 months). -/
def wRS : List (MDate × ℚ) := pctReturns (dropna wDates wPrices)

/-- A table for which the bulk fetch returned nothing. -/
def emptyTable : PriceTable := ⟨[], []⟩

/-! ## Lemmas about the return transform -/

theorem pctReturns_length (xs : List (MDate × ℚ)) :
    (pctReturns xs).length = xs.length - 1 := by
  unfold pctReturns
  rw [List.length_map, List.length_zip, List.length_tail]
  omega

theorem pctReturns_getElem? (xs : List (MDate × ℚ)) (i : ℕ) (p q : MDate × ℚ)
    (hp : xs[i]? = some p) (hq : xs[i + 1]? = some q) :
    (pctReturns xs)[i]? = some (q.1, (q.2 / p.2 - 1) * 100) := by
  have ht : xs.tail[i]? = some q := by
    rw [List.getElem?_tail]; exact hq
  have hz : (xs.zip xs.tail)[i]? = some (p, q) :=
    List.getElem?_zip_eq_some.mpr ⟨hp, ht⟩
  simp [pctReturns, List.getElem?_map, hz]

theorem returnSeriesSpec_pctReturns (cs : List (MDate × ℚ)) :
    returnSeriesSpec cs (ymDates (pctReturns cs)) (roundedReturns (pctReturns cs)) := by
  refine ⟨?_, ?_, ?_⟩
  · simp [roundedReturns, pctReturns_length]
  · simp [ymDates, pctReturns_length]
  · intro i p q hp hq
    have h := pctReturns_getElem? cs i p q hp hq
    constructor
    · simp [roundedReturns, List.getElem?_map, h]
    · simp [ymDates, List.getElem?_map, h]

theorem datesLabelReturns_of (ret : List (MDate × ℚ)) :
    datesLabelReturns ret (ymDates ret) (roundedReturns ret) := by
  refine ⟨by rw [ymDates, List.length_map], by rw [roundedReturns, List.length_map], ?_⟩
  intro i p hp
  constructor
  · simp [ymDates, List.getElem?_map, hp]
  · simp [roundedReturns, List.getElem?_map, hp]

/-! ## Registry facts -/

theorem tickerList_nodup : tickerList.Nodup := by decide

theorem spy_not_mem_tickerList : "SPY" ∉ tickerList := by decide

/-- A key-preserving `filterMap` keeps a sub-sequence of the keys. -/
theorem filterMap_fst_sublist {α γ β : Type} (l : List α) (key : α → γ)
    (g : α → Option (γ × β)) (hg : ∀ a p, g a = some p → p.1 = key a) :
    ((l.filterMap g).map Prod.fst).Sublist (l.map key) := by
  induction l with
  | nil => simp
  | cons a t ih =>
    cases hga : g a with
    | none => simp only [List.filterMap_cons, hga, List.map_cons]
              exact ih.cons (key a)
    | some p =>
      simp only [List.filterMap_cons, hga, List.map_cons, hg a p hga]
      exact ih.cons₂ (key a)

theorem returnsDict_fst_sublist (t : PriceTable) :
    (validTickers t).Sublist tickerList := by
  have h := filterMap_fst_sublist TICKERS Prod.fst
    (fun e => match processTicker t e.1 with
      | .ok ret => some (e.1, ret)
      | _ => none) ?_
  · exact h
  · intro a p hp
    dsimp only at hp
    split at hp
    · cases hp; rfl
    · cases hp

theorem validTickers_nodup (t : PriceTable) : (validTickers t).Nodup :=
  (returnsDict_fst_sublist t).nodup tickerList_nodup

theorem spy_not_mem_validTickers (t : PriceTable) : "SPY" ∉ validTickers t :=
  fun h => spy_not_mem_tickerList ((returnsDict_fst_sublist t).mem h)

/-! ## Association-list lemmas -/

theorem lookup_eq_some_of_mem {β : Type} (l : List (String × β)) (k : String)
    (v : β) (hnd : (l.map Prod.fst).Nodup) (hm : (k, v) ∈ l) :
    l.lookup k = some v := by
  induction l with
  | nil => cases hm
  | cons e t ih =>
    rcases List.mem_cons.mp hm with he | ht
    · rw [← he]; simp [List.lookup]
    · have hk : k ≠ e.1 := by
        intro hke
        have : e.1 ∈ t.map Prod.fst := by
          rw [← hke]; exact List.mem_map_of_mem Prod.fst ht
        rw [List.map_cons] at hnd
        exact (List.nodup_cons.mp hnd).1 this
      have hbeq : (k == e.1) = false := beq_eq_false_iff_ne.mpr hk
      rw [List.map_cons] at hnd
      simp [List.lookup, hbeq, ih (List.nodup_cons.mp hnd).2 ht]

/-- `returns_dict` and `ticker_data` succeed on exactly the same symbols. -/
theorem tickerData_fst_eq_validTickers (t : PriceTable) :
    (tickerData t).map Prod.fst = validTickers t := by
  unfold tickerData validTickers returnsDict
  induction TICKERS with
  | nil => simp
  | cons e l ih =>
    cases hpt : processTicker t e.1 with
    | ok ret => simp only [List.filterMap_cons, hpt, List.map_cons, ih]
    | notInData => simp only [List.filterMap_cons, hpt, ih]
    | tooShort n => simp only [List.filterMap_cons, hpt, ih]

/-- Membership in `ticker_data` in terms of the registry and processing. -/
theorem mem_tickerData_keys_iff (t : PriceTable) (sym : String) :
    (sym ∈ (tickerData t).map Prod.fst ↔
      ∃ e ∈ TICKERS, e.1 = sym ∧ ∃ ret, processTicker t sym = .ok ret) := by
  constructor
  · intro h
    rcases List.mem_map.mp h with ⟨kv, hkv, hfst⟩
    rcases List.mem_filterMap.mp hkv with ⟨e, he, hge⟩
    split at hge
    · rename_i ret hok
      cases hge
      exact ⟨e, he, hfst, ret, by rw [hfst] at hok; exact hok⟩
    · cases hge
  · rintro ⟨e, he, hsym, ret, hok⟩
    rw [← hsym] at hok
    refine List.mem_map.mpr ⟨(e.1, ⟨e.2.1, e.2.2, ymDates ret, roundedReturns ret⟩), ?_, hsym⟩
    exact List.mem_filterMap.mpr ⟨e, he, by simp only [hok]⟩

/-- Membership in `returns_dict` keys matches `ticker_data` keys. -/
theorem mem_returnsDict_of_processed (t : PriceTable) (sym : String) (ret : List (MDate × ℚ))
    (hreg : sym ∈ tickerList) (hok : processTicker t sym = .ok ret) :
    (sym, ret) ∈ returnsDict t := by
  rcases List.mem_map.mp hreg with ⟨e, he, hfst⟩
  rw [← hfst] at hok
  refine List.mem_filterMap.mpr ⟨e, he, ?_⟩
  simp only [hok]
  rw [hfst]

/-- The series stored in `returns_dict` is the processed return series. -/
theorem mem_returnsDict_inv (t : PriceTable) (e : String × List (MDate × ℚ))
    (h : e ∈ returnsDict t) :
    e.1 ∈ tickerList ∧ processTicker t e.1 = .ok e.2 := by
  rcases List.mem_filterMap.mp h with ⟨a, ha, hga⟩
  split at hga
  · rename_i ret hok
    cases hga
    exact ⟨List.mem_map_of_mem Prod.fst ha, hok⟩
  · cases hga

/-- Lookup in `returns_dict` of a stored entry. -/
theorem returnsDict_lookup (t : PriceTable) (e : String × List (MDate × ℚ))
    (h : e ∈ returnsDict t) : (returnsDict t).lookup e.1 = some e.2 :=
  lookup_eq_some_of_mem _ e.1 e.2 (validTickers_nodup t) h

/-! ## `upperPairs` lemmas -/

theorem mem_upperPairs_mem {α : Type} (l : List α) (a b : α)
    (h : (a, b) ∈ upperPairs l) : a ∈ l ∧ b ∈ l := by
  induction l with
  | nil => cases h
  | cons x xs ih =>
    rw [upperPairs, List.mem_append] at h
    rcases h with h | h
    · rcases List.mem_map.mp h with ⟨y, hy, hxy⟩
      cases hxy
      exact ⟨List.mem_cons_self _ _, List.mem_cons_of_mem _ hy⟩
    · exact ⟨List.mem_cons_of_mem _ (ih h).1, List.mem_cons_of_mem _ (ih h).2⟩

theorem upperPairs_ne {α : Type} (l : List α) (hnd : l.Nodup) (a b : α)
    (h : (a, b) ∈ upperPairs l) : a ≠ b := by
  induction l with
  | nil => cases h
  | cons x xs ih =>
    rw [upperPairs, List.mem_append] at h
    rw [List.nodup_cons] at hnd
    rcases h with h | h
    · rcases List.mem_map.mp h with ⟨y, hy, hxy⟩
      cases hxy
      intro hab
      exact hnd.1 (hab ▸ hy)
    · exact ih hnd.2 h

theorem upperPairs_asymm {α : Type} (l : List α) (hnd : l.Nodup) (a b : α)
    (h : (a, b) ∈ upperPairs l) : (b, a) ∉ upperPairs l := by
  induction l with
  | nil => cases h
  | cons x xs ih =>
    rw [List.nodup_cons] at hnd
    rw [upperPairs, List.mem_append] at h
    intro hba
    rw [upperPairs, List.mem_append] at hba
    have hmem : ∀ u v : α, (u, v) ∈ xs.map (fun y => (x, y)) → u = x ∧ v ∈ xs := by
      intro u v huv
      rcases List.mem_map.mp huv with ⟨y, hy, hxy⟩
      have h1 : x = u := congrArg Prod.fst hxy
      have h2 : y = v := congrArg Prod.snd hxy
      exact ⟨h1.symm, h2 ▸ hy⟩
    rcases h with h | h
    · obtain ⟨hax, hbxs⟩ := hmem a b h
      rcases hba with hba | hba
      · obtain ⟨hbx, haxs⟩ := hmem b a hba
        exact hnd.1 (hbx ▸ hbxs)
      · have haxs : a ∈ xs := (mem_upperPairs_mem xs b a hba).2
        exact hnd.1 (hax ▸ haxs)
    · rcases hba with hba | hba
      · obtain ⟨hbx, haxs⟩ := hmem b a hba
        have hbxs : b ∈ xs := (mem_upperPairs_mem xs a b h).2
        exact hnd.1 (hbx ▸ hbxs)
      · exact ih hnd.2 h hba

theorem upperPairs_map {α β : Type} (f : α → β) (l : List α) :
    upperPairs (l.map f) = (upperPairs l).map (Prod.map f f) := by
  induction l with
  | nil => rfl
  | cons x xs ih =>
    simp only [List.map_cons, upperPairs, ih, List.map_append, List.map_map]
    rfl

/-! ## Cauchy–Schwarz and the Pearson bounds -/

theorem sum_expand (l : List (ℚ × ℚ)) (t : ℚ) :
    (l.map fun p => (t * p.1 + p.2) * (t * p.1 + p.2)).sum =
      (l.map fun p => p.1 * p.1).sum * (t * t) +
      2 * (l.map fun p => p.1 * p.2).sum * t +
      (l.map fun p => p.2 * p.2).sum := by
  induction l with
  | nil => simp
  | cons p l ih => simp only [List.map_cons, List.sum_cons, ih]; ring

theorem list_cauchy (l : List (ℚ × ℚ)) :
    ((l.map fun p => p.1 * p.2).sum) ^ 2 ≤
      ((l.map fun p => p.1 * p.1).sum) * ((l.map fun p => p.2 * p.2).sum) := by
  have hq : ∀ x : ℚ,
      0 ≤ (l.map fun p => p.1 * p.1).sum * (x * x) +
        2 * (l.map fun p => p.1 * p.2).sum * x + (l.map fun p => p.2 * p.2).sum := by
    intro x
    have h0 : 0 ≤ (l.map fun p => (x * p.1 + p.2) * (x * p.1 + p.2)).sum := by
      apply List.sum_nonneg
      intro y hy
      rcases List.mem_map.mp hy with ⟨p, hp, hpy⟩
      rw [← hpy]
      exact mul_self_nonneg _
    rw [sum_expand l x] at h0
    exact h0
  have hd := discrim_le_zero hq
  rw [discrim] at hd
  nlinarith [hd]

theorem varX_nonneg (ps : List (ℚ × ℚ)) : 0 ≤ varX ps := by
  apply List.sum_nonneg
  intro y hy
  rcases List.mem_map.mp hy with ⟨p, hp, hpy⟩
  rw [← hpy]
  exact mul_self_nonneg _

theorem varY_nonneg (ps : List (ℚ × ℚ)) : 0 ≤ varY ps := by
  apply List.sum_nonneg
  intro y hy
  rcases List.mem_map.mp hy with ⟨p, hp, hpy⟩
  rw [← hpy]
  exact mul_self_nonneg _

theorem covXY_sq_le (ps : List (ℚ × ℚ)) :
    (covXY ps) ^ 2 ≤ varX ps * varY ps :=
  list_cauchy (centered ps)

theorem corrDefined_iff (ps : List (ℚ × ℚ)) :
    corrDefined ps = true ↔ 0 < varX ps ∧ 0 < varY ps := by
  rw [corrDefined, Bool.and_eq_true, decide_eq_true_eq, decide_eq_true_eq]

theorem pearson_abs_le_one (ps : List (ℚ × ℚ)) (h : corrDefined ps = true) :
    |pearson ps| ≤ 1 := by
  obtain ⟨hx, hy⟩ := (corrDefined_iff ps).mp h
  have hxy : (0:ℚ) < varX ps * varY ps := mul_pos hx hy
  have hxyR : (0:ℝ) < (varX ps : ℝ) * (varY ps : ℝ) := by exact_mod_cast hxy
  have hcsR : ((covXY ps : ℝ)) ^ 2 ≤ (varX ps : ℝ) * (varY ps : ℝ) := by
    exact_mod_cast covXY_sq_le ps
  have hsq : 0 < Real.sqrt ((varX ps : ℝ) * (varY ps : ℝ)) := Real.sqrt_pos.mpr hxyR
  rw [pearson, abs_div, abs_of_pos hsq, div_le_one hsq]
  calc |(covXY ps : ℝ)| = Real.sqrt (((covXY ps : ℝ)) ^ 2) := (Real.sqrt_sq_eq_abs _).symm
    _ ≤ Real.sqrt ((varX ps : ℝ) * (varY ps : ℝ)) := Real.sqrt_le_sqrt hcsR

theorem round_le_round_of_le {x y : ℝ} (h : x ≤ y) : round x ≤ round y := by
  rw [round_eq, round_eq]
  exact Int.floor_mono (by linarith)

theorem pyRoundR_abs_le (n : ℕ) (x : ℝ) (h : |x| ≤ 1) : |pyRoundR n x| ≤ 1 := by
  have hpow : (0:ℝ) < 10 ^ n := by positivity
  have h1 : x * 10 ^ n ≤ 10 ^ n := by
    have := abs_le.mp h
    nlinarith [this.1, this.2]
  have h2 : -(10 ^ n : ℝ) ≤ x * 10 ^ n := by
    have := abs_le.mp h
    nlinarith [this.1, this.2]
  have hr10 : round ((10:ℝ) ^ n) = (10 ^ n : ℤ) := by
    rw [show ((10:ℝ) ^ n) = ((10 ^ n : ℤ) : ℝ) by push_cast; ring]
    exact round_intCast _
  have hrneg : round (-(10:ℝ) ^ n) = -(10 ^ n : ℤ) := by
    rw [show (-(10:ℝ) ^ n) = ((-(10 ^ n) : ℤ) : ℝ) by push_cast; ring]
    exact round_intCast _
  have hub : round (x * 10 ^ n) ≤ (10 ^ n : ℤ) := by
    have h3 := round_le_round_of_le h1
    rwa [hr10] at h3
  have hlb : -(10 ^ n : ℤ) ≤ round (x * 10 ^ n) := by
    have h4 := round_le_round_of_le h2
    rwa [hrneg] at h4
  rw [pyRoundR, abs_div, abs_of_pos hpow, div_le_one hpow]
  have : |round (x * 10 ^ n)| ≤ (10 ^ n : ℤ) := abs_le.mpr ⟨hlb, hub⟩
  calc |((round (x * 10 ^ n) : ℤ) : ℝ)| = ((|round (x * 10 ^ n)| : ℤ) : ℝ) := by
        push_cast; rfl
    _ ≤ ((10 ^ n : ℤ) : ℝ) := by exact_mod_cast this
    _ = (10 : ℝ) ^ n := by push_cast; ring

theorem corrValue_bounds (ps : List (ℚ × ℚ)) (h : corrDefined ps = true) :
    -1 ≤ pyRoundR 3 (pearson ps) ∧ pyRoundR 3 (pearson ps) ≤ 1 :=
  abs_le.mp (pyRoundR_abs_le 3 (pearson ps) (pearson_abs_le_one ps h))

/-! ## Alignment agrees with the spec's shared-period observations -/

theorem lookup_eq_find? (ys : List (MDate × ℚ)) (d : MDate) :
    ys.lookup d = Option.map Prod.snd (ys.find? fun q => q.1 == d) := by
  induction ys with
  | nil => rfl
  | cons e t ih =>
    rcases e with ⟨k, v⟩
    by_cases h : d = k
    · subst h
      simp [List.lookup, List.find?]
    · have h1 : (d == k) = false := beq_eq_false_iff_ne.mpr h
      have h2 : (k == d) = false := beq_eq_false_iff_ne.mpr (Ne.symm h)
      simp [List.lookup, List.find?, h1, h2, ih]

theorem align_eq_sharedObs (xs ys : List (MDate × ℚ)) :
    align xs ys = sharedObs xs ys := by
  unfold align sharedObs
  congr 1
  funext p
  rw [lookup_eq_find?]
  cases ys.find? fun q => q.1 == p.1 <;> rfl

theorem specCorr_eq_pearson (xs ys : List (MDate × ℚ)) :
    specCorr xs ys = pearson (align xs ys) := by
  rw [specCorr, ← align_eq_sharedObs, pearson,
    Real.sqrt_mul (by exact_mod_cast varX_nonneg (align xs ys))]

/-! ## Structure of the correlation entries -/

theorem mem_upperAligned_inv (t : PriceTable) (p : String × String)
    (ps : List (ℚ × ℚ)) (h : (p, ps) ∈ upperAligned t) :
    corrDefined ps = true ∧
      ∃ e₁ e₂, (e₁, e₂) ∈ upperPairs (returnsDict t) ∧ p = (e₁.1, e₂.1) ∧
        ps = align e₁.2 e₂.2 := by
  rcases List.mem_filterMap.mp h with ⟨pq, hpq, hg⟩
  split at hg
  · rename_i hdef
    injection hg with hg
    injection hg with hg1 hg2
    subst hg1; subst hg2
    exact ⟨hdef, pq.1, pq.2, hpq, rfl, rfl⟩
  · cases hg

theorem mem_spyAligned_inv (rs : List (MDate × ℚ)) (t : PriceTable)
    (p : String × String) (ps : List (ℚ × ℚ)) (h : (p, ps) ∈ spyAligned rs t) :
    corrDefined ps = true ∧
      ∃ e, e ∈ returnsDict t ∧ p = ("SPY", e.1) ∧ ps = align rs e.2 ∧
        12 < ps.length := by
  rcases List.mem_filterMap.mp h with ⟨e, he, hg⟩
  split at hg
  · rename_i hlen
    split at hg
    · rename_i hdef
      injection hg with hg
      injection hg with hg1 hg2
      subst hg1; subst hg2
      exact ⟨hdef, e, he, rfl, rfl, hlen⟩
    · cases hg
  · cases hg

theorem mem_corrAligned_inv (t : PriceTable) (rs : List (MDate × ℚ))
    (p : String × String) (ps : List (ℚ × ℚ)) (h : (p, ps) ∈ corrAligned t rs) :
    corrDefined ps = true ∧
      ((∃ e₁ e₂, (e₁, e₂) ∈ upperPairs (returnsDict t) ∧ p = (e₁.1, e₂.1) ∧
          ps = align e₁.2 e₂.2) ∨
        (∃ e, e ∈ returnsDict t ∧ p = ("SPY", e.1) ∧ ps = align rs e.2 ∧
          12 < ps.length)) := by
  rcases List.mem_append.mp h with h | h
  · obtain ⟨hdef, hrest⟩ := mem_upperAligned_inv t p ps h
    exact ⟨hdef, Or.inl hrest⟩
  · obtain ⟨hdef, hrest⟩ := mem_spyAligned_inv rs t p ps h
    exact ⟨hdef, Or.inr hrest⟩

theorem mem_spyAligned_of (rs : List (MDate × ℚ)) (t : PriceTable)
    (sym : String) (ret : List (MDate × ℚ)) (hm : (sym, ret) ∈ returnsDict t)
    (hlen : 12 < (align rs ret).length)
    (hdef : corrDefined (align rs ret) = true) :
    (("SPY", sym), align rs ret) ∈ spyAligned rs t := by
  refine List.mem_filterMap.mpr ⟨(sym, ret), hm, ?_⟩
  simp only [hlen, hdef, if_pos, if_true]

theorem mem_corrAligned_of_spy (rs : List (MDate × ℚ)) (t : PriceTable)
    (sym : String) (ret : List (MDate × ℚ)) (hm : (sym, ret) ∈ returnsDict t)
    (hlen : 12 < (align rs ret).length)
    (hdef : corrDefined (align rs ret) = true) :
    (("SPY", sym), align rs ret) ∈ corrAligned t rs :=
  List.mem_append_right _ (mem_spyAligned_of rs t sym ret hm hlen hdef)

/-- Each key of the correlations map is in the upper triangle of the valid
tickers or is a benchmark pair with a valid ticker. -/
theorem corrKeys_cases (t : PriceTable) (rs : List (MDate × ℚ))
    (p : String × String) (h : p ∈ corrKeys t rs) :
    p ∈ upperPairs (validTickers t) ∨ (p.1 = "SPY" ∧ p.2 ∈ validTickers t) := by
  rcases List.mem_map.mp h with ⟨e, he, hfst⟩
  obtain ⟨hdef, hcase⟩ := mem_corrAligned_inv t rs e.1 e.2 (by
    have : e = (e.1, e.2) := rfl
    rw [← this]; exact he)
  subst hfst
  rcases hcase with ⟨e₁, e₂, hup, hp, hps⟩ | ⟨e', he', hp, hps, hlen⟩
  · left
    rw [hp]
    have := List.mem_map_of_mem (Prod.map Prod.fst Prod.fst) hup
    rw [← upperPairs_map] at this
    exact this
  · right
    rw [hp]
    exact ⟨rfl, List.mem_map_of_mem Prod.fst he'⟩

/-! ## Positive variance from two distinct observations -/

theorem varX_pos_of_ne (ps : List (ℚ × ℚ)) (a b : ℚ × ℚ)
    (ha : a ∈ ps) (hb : b ∈ ps) (hne : a.1 ≠ b.1) : 0 < varX ps := by
  set m := mean (ps.map Prod.fst) with hm
  have key : a.1 - m ≠ 0 ∨ b.1 - m ≠ 0 := by
    by_contra hc
    push_neg at hc
    apply hne
    have h1 : a.1 = m := by linarith [hc.1]
    have h2 : b.1 = m := by linarith [hc.2]
    rw [h1, h2]
  rcases key with hk | hk
  · have hmem : (a.1 - m) * (a.1 - m) ∈ (centered ps).map fun p => p.1 * p.1 := by
      have h1 : (a.1 - m, a.2 - mean (ps.map Prod.snd)) ∈ centered ps :=
        List.mem_map_of_mem _ ha
      exact List.mem_map_of_mem (fun p => p.1 * p.1) h1
    have hpos : 0 < (a.1 - m) * (a.1 - m) := mul_self_pos.mpr hk
    calc (0:ℚ) < (a.1 - m) * (a.1 - m) := hpos
      _ ≤ varX ps := List.single_le_sum (by
            intro y hy
            rcases List.mem_map.mp hy with ⟨p, hp, hpy⟩
            rw [← hpy]; exact mul_self_nonneg _) _ hmem
  · have hmem : (b.1 - m) * (b.1 - m) ∈ (centered ps).map fun p => p.1 * p.1 := by
      have h1 : (b.1 - m, b.2 - mean (ps.map Prod.snd)) ∈ centered ps :=
        List.mem_map_of_mem _ hb
      exact List.mem_map_of_mem (fun p => p.1 * p.1) h1
    have hpos : 0 < (b.1 - m) * (b.1 - m) := mul_self_pos.mpr hk
    calc (0:ℚ) < (b.1 - m) * (b.1 - m) := hpos
      _ ≤ varX ps := List.single_le_sum (by
            intro y hy
            rcases List.mem_map.mp hy with ⟨p, hp, hpy⟩
            rw [← hpy]; exact mul_self_nonneg _) _ hmem

theorem varY_pos_of_ne (ps : List (ℚ × ℚ)) (a b : ℚ × ℚ)
    (ha : a ∈ ps) (hb : b ∈ ps) (hne : a.2 ≠ b.2) : 0 < varY ps := by
  set m := mean (ps.map Prod.snd) with hm
  have key : a.2 - m ≠ 0 ∨ b.2 - m ≠ 0 := by
    by_contra hc
    push_neg at hc
    apply hne
    have h1 : a.2 = m := by linarith [hc.1]
    have h2 : b.2 = m := by linarith [hc.2]
    rw [h1, h2]
  rcases key with hk | hk
  · have hmem : (a.2 - m) * (a.2 - m) ∈ (centered ps).map fun p => p.2 * p.2 := by
      have h1 : (a.1 - mean (ps.map Prod.fst), a.2 - m) ∈ centered ps :=
        List.mem_map_of_mem _ ha
      exact List.mem_map_of_mem (fun p => p.2 * p.2) h1
    have hpos : 0 < (a.2 - m) * (a.2 - m) := mul_self_pos.mpr hk
    calc (0:ℚ) < (a.2 - m) * (a.2 - m) := hpos
      _ ≤ varY ps := List.single_le_sum (by
            intro y hy
            rcases List.mem_map.mp hy with ⟨p, hp, hpy⟩
            rw [← hpy]; exact mul_self_nonneg _) _ hmem
  · have hmem : (b.2 - m) * (b.2 - m) ∈ (centered ps).map fun p => p.2 * p.2 := by
      have h1 : (b.1 - mean (ps.map Prod.fst), b.2 - m) ∈ centered ps :=
        List.mem_map_of_mem _ hb
      exact List.mem_map_of_mem (fun p => p.2 * p.2) h1
    have hpos : 0 < (b.2 - m) * (b.2 - m) := mul_self_pos.mpr hk
    calc (0:ℚ) < (b.2 - m) * (b.2 - m) := hpos
      _ ≤ varY ps := List.single_le_sum (by
            intro y hy
            rcases List.mem_map.mp hy with ⟨p, hp, hpy⟩
            rw [← hpy]; exact mul_self_nonneg _) _ hmem

/-! ## Inversion helpers for processing results -/

theorem processTicker_ok_inv (t : PriceTable) (sym : String)
    (ret : List (MDate × ℚ)) (c : List (Option ℚ))
    (hok : processTicker t sym = .ok ret) (hc : t.col sym = some c) :
    ret = pctReturns (dropna t.dates c) ∧ 24 ≤ (dropna t.dates c).length := by
  simp only [processTicker, hc] at hok
  split at hok
  · cases hok
  · rename_i hlen
    injection hok with h
    exact ⟨h.symm, by omega⟩

theorem processTicker_ok_col (t : PriceTable) (sym : String)
    (ret : List (MDate × ℚ)) (hok : processTicker t sym = .ok ret) :
    ∃ c, t.col sym = some c := by
  rw [processTicker] at hok
  cases hc : t.col sym with
  | none => rw [hc] at hok; cases hok
  | some c => exact ⟨c, rfl⟩

theorem mem_tickerData_inv (t : PriceTable) (sym : String) (out : TickerOut)
    (h : (sym, out) ∈ tickerData t) :
    ∃ ret, processTicker t sym = .ok ret ∧
      out.dates = ymDates ret ∧ out.returns = roundedReturns ret := by
  rcases List.mem_filterMap.mp h with ⟨e, he, hge⟩
  split at hge
  · rename_i ret hok
    injection hge with hge
    injection hge with h1 h2
    refine ⟨ret, h1 ▸ hok, ?_, ?_⟩
    · rw [← h2]
    · rw [← h2]
  · cases hge

theorem symFailed_false_inv (t : PriceTable) (sym : String)
    (h : symFailed t sym = false) : ∃ ret, processTicker t sym = .ok ret := by
  rw [symFailed] at h
  split at h
  · rename_i ret hok
    exact ⟨ret, hok⟩
  · cases h

theorem symFailed_true_not_ok (t : PriceTable) (sym : String)
    (h : symFailed t sym = true) (ret : List (MDate × ℚ)) :
    processTicker t sym ≠ .ok ret := by
  intro hok
  rw [symFailed, hok] at h
  cases h

theorem mem_validTickers_inv (t : PriceTable) (sym : String)
    (h : sym ∈ validTickers t) : ∃ ret, processTicker t sym = .ok ret := by
  rcases List.mem_map.mp h with ⟨e, he, hfst⟩
  obtain ⟨hreg, hok⟩ := mem_returnsDict_inv t e he
  exact ⟨e.2, hfst ▸ hok⟩

/-! ## Facts about the sample inputs -/

theorem wSpy_processed : processSpy wTable = some wRS := rfl

theorem wAligned_defined : corrDefined (align wRS wRS) = true := by
  have h0 : (align wRS wRS)[0]? =
      some (((2:ℚ)/1 - 1) * 100, ((2:ℚ)/1 - 1) * 100) := rfl
  have h1 : (align wRS wRS)[1]? =
      some (((1:ℚ)/2 - 1) * 100, ((1:ℚ)/2 - 1) * 100) := rfl
  have hne : ((2:ℚ)/1 - 1) * 100 ≠ ((1:ℚ)/2 - 1) * 100 := by norm_num
  exact (corrDefined_iff _).mpr
    ⟨varX_pos_of_ne _ _ _ (List.getElem?_mem h0) (List.getElem?_mem h1) hne,
     varY_pos_of_ne _ _ _ (List.getElem?_mem h0) (List.getElem?_mem h1) hne⟩

theorem wAapl_mem_returnsDict : ("AAPL", wRS) ∈ returnsDict wTable :=
  mem_returnsDict_of_processed wTable "AAPL" wRS (by decide) rfl

theorem wSpyPair_mem : (("SPY", "AAPL"), align wRS wRS) ∈ corrAligned wTable wRS :=
  mem_corrAligned_of_spy wRS wTable "AAPL" wRS wAapl_mem_returnsDict
    (by decide) wAligned_defined

theorem wSpyPair_key_mem : ("SPY", "AAPL") ∈ corrKeys wTable wRS :=
  List.mem_map_of_mem Prod.fst wSpyPair_mem

/-! ## The claims -/

/-- C1: for every retained price series (the benchmark's and every
registry symbol that passes processing), the derived return series has one
entry per consecutive pair of non-missing prices — length = cleaned length
− 1, exactly one less when at least 24 observations are required — each
equal to `(price[t]/price[t-1] - 1) * 100` rounded to 4 decimals and
labelled by month `t`'s year-month string. -/
theorem spec_return_series (t : PriceTable) (rs : List (MDate × ℚ))
    (hspy : processSpy t = some rs) :
    (∀ c, t.col "SPY" = some c →
      returnSeriesSpec (dropna t.dates c) (ymDates rs) (roundedReturns rs)) ∧
    (∀ sym out c, (sym, out) ∈ tickerData t → t.col sym = some c →
      returnSeriesSpec (dropna t.dates c) out.dates out.returns ∧
      out.returns.length + 1 = (dropna t.dates c).length) := by
  constructor
  · intro c hc
    rw [processSpy, hc] at hspy
    injection hspy with hspy
    rw [← hspy]
    exact returnSeriesSpec_pctReturns _
  · intro sym out c hmem hc
    obtain ⟨ret, hok, hd, hr⟩ := mem_tickerData_inv t sym out hmem
    obtain ⟨hret, hlen⟩ := processTicker_ok_inv t sym ret c hok hc
    subst hret
    rw [hd, hr]
    refine ⟨returnSeriesSpec_pctReturns _, ?_⟩
    have h1 := pctReturns_length (dropna t.dates c)
    rw [roundedReturns, List.length_map, h1]
    omega

/-- C1 witness: the sample benchmark series satisfies the return-series
specification. -/
theorem spec_return_series_witness :
    wTable.col "SPY" = some wPrices ∧
      returnSeriesSpec (dropna wTable.dates wPrices) (ymDates wRS)
        (roundedReturns wRS) :=
  ⟨rfl, (spec_return_series wTable wRS rfl).1 wPrices rfl⟩

/-- C2: every entry of the correlations map carries the Pearson coefficient
of the two symbols' return series computed over exactly the periods present
in both (pairwise-complete observations, a function of the two series
alone, not of a common window), rounded to 3 decimals. -/
theorem spec_pairwise_complete_corr (t : PriceTable) (rs : List (MDate × ℚ))
    (p : String × String) (ps : List (ℚ × ℚ)) (hspy : processSpy t = some rs)
    (h : (p, ps) ∈ corrAligned t rs) :
    ps = sharedObs (symSeries t rs p.1) (symSeries t rs p.2) ∧
    (p, pyRoundR 3 (specCorr (symSeries t rs p.1) (symSeries t rs p.2)))
      ∈ correlationsOf t rs := by
  have hval : (p, pyRoundR 3 (pearson ps)) ∈ correlationsOf t rs :=
    List.mem_map_of_mem (fun e => (e.1, pyRoundR 3 (pearson e.2))) h
  obtain ⟨hdef, hcase⟩ := mem_corrAligned_inv t rs p ps h
  have hsym_of_mem : ∀ e : String × List (MDate × ℚ), e ∈ returnsDict t →
      symSeries t rs e.1 = e.2 := by
    intro e he
    obtain ⟨hreg, _⟩ := mem_returnsDict_inv t e he
    have hne : e.1 ≠ "SPY" := fun hcontra =>
      spy_not_mem_tickerList (hcontra ▸ hreg)
    rw [symSeries, if_neg hne, returnsDict_lookup t e he]
    rfl
  rcases hcase with ⟨e₁, e₂, hup, hp, hps⟩ | ⟨e, he, hp, hps, hlen⟩
  · obtain ⟨h₁, h₂⟩ := mem_upperPairs_mem _ e₁ e₂ hup
    subst hp
    have hs₁ : symSeries t rs e₁.1 = e₁.2 := hsym_of_mem e₁ h₁
    have hs₂ : symSeries t rs e₂.1 = e₂.2 := hsym_of_mem e₂ h₂
    constructor
    · rw [hps]
      show align e₁.2 e₂.2 = sharedObs (symSeries t rs e₁.1) (symSeries t rs e₂.1)
      rw [← align_eq_sharedObs, hs₁, hs₂]
    · have heq : specCorr (symSeries t rs e₁.1) (symSeries t rs e₂.1) = pearson ps := by
        rw [specCorr_eq_pearson, hs₁, hs₂, hps]
      show ((e₁.1, e₂.1),
        pyRoundR 3 (specCorr (symSeries t rs e₁.1) (symSeries t rs e₂.1)))
          ∈ correlationsOf t rs
      rw [heq]
      exact hval
  · have hs : symSeries t rs e.1 = e.2 := hsym_of_mem e he
    subst hp
    have hspyS : symSeries t rs "SPY" = rs := by rw [symSeries, if_pos rfl]
    constructor
    · rw [hps]
      show align rs e.2 = sharedObs (symSeries t rs "SPY") (symSeries t rs e.1)
      rw [← align_eq_sharedObs, hspyS, hs]
    · have heq : specCorr (symSeries t rs "SPY") (symSeries t rs e.1) = pearson ps := by
        rw [specCorr_eq_pearson, hspyS, hs, hps]
      show (("SPY", e.1),
        pyRoundR 3 (specCorr (symSeries t rs "SPY") (symSeries t rs e.1)))
          ∈ correlationsOf t rs
      rw [heq]
      exact hval

/-- C2 witness: the sample benchmark/AAPL entry is computed over the shared
periods of those two series alone. -/
theorem spec_pairwise_complete_corr_witness :
    (("SPY", "AAPL"), align wRS wRS) ∈ corrAligned wTable wRS ∧
      align wRS wRS =
        sharedObs (symSeries wTable wRS "SPY") (symSeries wTable wRS "AAPL") :=
  ⟨wSpyPair_mem,
    (spec_pairwise_complete_corr wTable wRS ("SPY", "AAPL") (align wRS wRS)
      rfl wSpyPair_mem).1⟩

/-- C3: a registry symbol appears in the `tickers` map iff its column is
present (processing raises nothing) with at least 24 non-missing prices;
with fewer observations it is absent from `tickers` and from every
correlation-key component. -/
theorem spec_min_history_gate (t : PriceTable) (rs : List (MDate × ℚ))
    (sym : String) (hspy : processSpy t = some rs) (hreg : sym ∈ tickerList) :
    (sym ∈ (tickerData t).map Prod.fst ↔
      ∃ c, t.col sym = some c ∧ 24 ≤ (dropna t.dates c).length) ∧
    (∀ c, t.col sym = some c → (dropna t.dates c).length < 24 →
      sym ∉ (tickerData t).map Prod.fst ∧
      ∀ p, p ∈ corrKeys t rs → p.1 ≠ sym ∧ p.2 ≠ sym) := by
  have hiff : sym ∈ (tickerData t).map Prod.fst ↔
      ∃ c, t.col sym = some c ∧ 24 ≤ (dropna t.dates c).length := by
    rw [mem_tickerData_keys_iff]
    constructor
    · rintro ⟨e, he, hfst, ret, hok⟩
      obtain ⟨c, hc⟩ := processTicker_ok_col t sym ret hok
      obtain ⟨hret, hlen⟩ := processTicker_ok_inv t sym ret c hok hc
      exact ⟨c, hc, hlen⟩
    · rintro ⟨c, hc, hlen⟩
      rcases List.mem_map.mp hreg with ⟨e, he, hfst⟩
      refine ⟨e, he, hfst, pctReturns (dropna t.dates c), ?_⟩
      simp only [processTicker, hc]
      rw [if_neg (by omega)]
  refine ⟨hiff, ?_⟩
  intro c hc hlt
  have hnmem : sym ∉ (tickerData t).map Prod.fst := by
    intro hmem
    obtain ⟨c2, hc2, hlen2⟩ := hiff.mp hmem
    rw [hc] at hc2
    injection hc2 with hc2
    subst hc2
    omega
  have hnv : sym ∉ validTickers t := by
    intro hv
    obtain ⟨ret, hok⟩ := mem_validTickers_inv t sym hv
    obtain ⟨hret, hlen⟩ := processTicker_ok_inv t sym ret c hok hc
    omega
  have hnspy : sym ≠ "SPY" := fun hcontra =>
    spy_not_mem_tickerList (hcontra ▸ hreg)
  refine ⟨hnmem, ?_⟩
  intro p hp
  rcases corrKeys_cases t rs p hp with hup | ⟨h1, h2⟩
  · obtain ⟨hm1, hm2⟩ := mem_upperPairs_mem _ p.1 p.2 hup
    exact ⟨fun hcontra => hnv (hcontra ▸ hm1), fun hcontra => hnv (hcontra ▸ hm2)⟩
  · exact ⟨fun hcontra => hnspy ((hcontra ▸ h1).symm ▸ rfl),
      fun hcontra => hnv (hcontra ▸ h2)⟩

/-- C3 witness: in the sample table the 25-observation symbol AAPL is in
the `tickers` map. -/
theorem spec_min_history_gate_witness :
    ("AAPL" ∈ tickerList) ∧ "AAPL" ∈ (tickerData wTable).map Prod.fst :=
  ⟨by decide,
    (spec_min_history_gate wTable wRS "AAPL" rfl (by decide)).1.mpr
      ⟨wPrices, rfl, by decide⟩⟩

/-- C4: the correlations map never holds both orders of one unordered pair
and never a self-pair; every key is an upper-triangle (`i < j`) pair of
valid tickers or a benchmark pair `("SPY", symbol)`. -/
theorem spec_upper_triangle_keys (t : PriceTable) (rs : List (MDate × ℚ)) :
    List.Pairwise (fun p q : String × String => ¬(p.1 = q.2 ∧ p.2 = q.1))
      (corrKeys t rs) ∧
    (∀ p, p ∈ corrKeys t rs → p.1 ≠ p.2) ∧
    (∀ p, p ∈ corrKeys t rs →
      p ∈ upperPairs (validTickers t) ∨ (p.1 = "SPY" ∧ p.2 ∈ validTickers t)) := by
  have hnd := validTickers_nodup t
  have hspy := spy_not_mem_validTickers t
  refine ⟨?_, ?_, fun p hp => corrKeys_cases t rs p hp⟩
  · apply List.pairwise_of_forall_mem_list
    intro p hp q hq
    rintro ⟨h1, h2⟩
    rcases corrKeys_cases t rs p hp with hpu | ⟨hp1, hp2⟩
    · rcases corrKeys_cases t rs q hq with hqu | ⟨hq1, hq2⟩
      · have hqswap : (p.2, p.1) ∈ upperPairs (validTickers t) := by
          have : q = (p.2, p.1) := by
            rw [Prod.ext_iff]
            exact ⟨h2.symm, h1.symm⟩
          rw [← this]
          exact hqu
        exact upperPairs_asymm (validTickers t) hnd p.1 p.2 hpu hqswap
      · have : p.2 ∈ validTickers t := (mem_upperPairs_mem _ p.1 p.2 hpu).2
        rw [h2, hq1] at this
        exact hspy this
    · rcases corrKeys_cases t rs q hq with hqu | ⟨hq1, hq2⟩
      · have : q.2 ∈ validTickers t := (mem_upperPairs_mem _ q.1 q.2 hqu).2
        rw [← h1, hp1] at this
        exact hspy this
      · rw [hp1] at h1
        rw [← h1] at hq2
        exact hspy hq2
  · intro p hp
    rcases corrKeys_cases t rs p hp with hpu | ⟨hp1, hp2⟩
    · exact upperPairs_ne (validTickers t) hnd p.1 p.2 hpu
    · intro hcontra
      rw [← hcontra, hp1] at hp2
      exact hspy hp2

/-- C5: every value in the correlations map lies in `[-1, 1]` (a finite
real number), and every entry present has a defined coefficient — a pair
with an undefined coefficient never enters the map. -/
theorem spec_correlation_values_bounded (t : PriceTable) (rs : List (MDate × ℚ)) :
    (∀ kv, kv ∈ correlationsOf t rs → -1 ≤ kv.2 ∧ kv.2 ≤ 1) ∧
    (∀ p ps, (p, ps) ∈ corrAligned t rs → corrDefined ps = true) := by
  constructor
  · intro kv hkv
    rcases List.mem_map.mp hkv with ⟨e, he, hfe⟩
    have hdef : corrDefined e.2 = true :=
      (mem_corrAligned_inv t rs e.1 e.2 (by rw [show ((e.1, e.2) : _ × _) = e from rfl]; exact he)).1
    have := corrValue_bounds e.2 hdef
    rw [← hfe]
    exact this
  · intro p ps hm
    exact (mem_corrAligned_inv t rs p ps hm).1

/-- C6: a benchmark key `("SPY", x)` is present only when the benchmark
series and `x`'s stored return series overlap in strictly more than 12
periods and the coefficient is defined. -/
theorem spec_benchmark_overlap_gate (t : PriceTable) (rs : List (MDate × ℚ))
    (x : String) (hspy : processSpy t = some rs)
    (h : ("SPY", x) ∈ corrKeys t rs) :
    ∃ ret, (x, ret) ∈ returnsDict t ∧ 12 < (align rs ret).length ∧
      corrDefined (align rs ret) = true := by
  rcases List.mem_map.mp h with ⟨e, he, hfst⟩
  obtain ⟨hdef, hcase⟩ := mem_corrAligned_inv t rs e.1 e.2
    (by rw [show ((e.1, e.2) : _ × _) = e from rfl]; exact he)
  rcases hcase with ⟨e₁, e₂, hup, hp, hps⟩ | ⟨e', he', hp, hps, hlen⟩
  · exfalso
    have h₁ : e₁ ∈ returnsDict t := (mem_upperPairs_mem _ e₁ e₂ hup).1
    have : e₁.1 ∈ validTickers t := List.mem_map_of_mem Prod.fst h₁
    rw [hfst] at hp
    have hspy1 : e₁.1 = "SPY" := by
      have := congrArg Prod.fst hp
      exact this.symm
    rw [hspy1] at this
    exact spy_not_mem_validTickers t this
  · rw [hfst] at hp
    have hx : x = e'.1 := congrArg Prod.snd hp
    refine ⟨e'.2, ?_, ?_, ?_⟩
    · rw [hx, show ((e'.1, e'.2) : _ × _) = e' from rfl]
      exact he'
    · rw [← hps]; rw [hps] at hlen ⊢; exact hlen
    · rw [← hps]; exact hdef

/-- C6 witness: the sample benchmark/AAPL pair key is present, with its
24-period overlap and defined coefficient. -/
theorem spec_benchmark_overlap_gate_witness :
    (("SPY", "AAPL") ∈ corrKeys wTable wRS) ∧
      ∃ ret, ("AAPL", ret) ∈ returnsDict wTable ∧
        12 < (align wRS ret).length ∧ corrDefined (align wRS ret) = true :=
  ⟨wSpyPair_key_mem,
    spec_benchmark_overlap_gate wTable wRS "AAPL" rfl wSpyPair_key_mem⟩

/-- C7: an empty bulk-fetch result or a failing benchmark lookup aborts the
run with a fatal non-zero exit and no output document. -/
theorem spec_fatal_abort (today : String) (t : PriceTable)
    (h : t.isEmpty = true ∨ processSpy t = none) :
    run today t = RunResult.fatal := by
  rcases h with h | h
  · rw [run, if_pos h]
  · rw [run]
    split
    · rfl
    · rw [h]

/-- C7 witness: the empty table aborts fatally. -/
theorem spec_fatal_abort_witness :
    emptyTable.isEmpty = true ∧ run "2026-10-12" emptyTable = RunResult.fatal :=
  ⟨rfl, spec_fatal_abort "2026-10-12" emptyTable (Or.inl rfl)⟩

/-- C8: a per-symbol failure (missing column, short history, or any raised
per-symbol error) only excludes that symbol: the run still succeeds with a
document, the failed symbol is absent from `tickers`, and every
successfully processed registry symbol is present. -/
theorem spec_per_symbol_isolation (today : String) (t : PriceTable)
    (rs : List (MDate × ℚ)) (sym : String) (hne : t.isEmpty = false)
    (hspy : processSpy t = some rs) (hreg : sym ∈ tickerList)
    (hfail : symFailed t sym = true) :
    (∃ doc, run today t = RunResult.success doc ∧
      doc.tickers = tickerData t ∧ doc.correlations = correlationsOf t rs) ∧
    sym ∉ (tickerData t).map Prod.fst ∧
    (∀ s, s ∈ tickerList → symFailed t s = false →
      s ∈ (tickerData t).map Prod.fst) := by
  refine ⟨?_, ?_, ?_⟩
  · refine ⟨⟨today, ymDates rs, roundedReturns rs, tickerData t, correlationsOf t rs⟩, ?_, rfl, rfl⟩
    rw [run, if_neg (by rw [hne]; exact Bool.false_ne_true), hspy]
  · intro hmem
    rcases (mem_tickerData_keys_iff t sym).mp hmem with ⟨e, he, hfst, ret, hok⟩
    exact symFailed_true_not_ok t sym hfail ret hok
  · intro s hs hok
    obtain ⟨ret, hoks⟩ := symFailed_false_inv t s hok
    rcases List.mem_map.mp hs with ⟨e, he, hfst⟩
    exact (mem_tickerData_keys_iff t s).mpr ⟨e, he, hfst, ret, hoks⟩

/-- C8 witness: in the sample table MSFT is missing from the data; the run
continues and MSFT is simply absent from `tickers`. -/
theorem spec_per_symbol_isolation_witness :
    symFailed wTable "MSFT" = true ∧ "MSFT" ∉ (tickerData wTable).map Prod.fst :=
  ⟨rfl, (spec_per_symbol_isolation "2026-10-12" wTable wRS "MSFT" rfl rfl
    (by decide) rfl).2.1⟩

/-- C9: two runs over the same fetched table produce the same document in
every part except the `generated` stamp (a deterministic serializer then
yields byte-identical JSON outside that field), and the stamp is the run's
date. -/
theorem spec_idempotent_modulo_generated (t : PriceTable) (g₁ g₂ : String) :
    ((run g₁ t).docPart).map stripGenerated =
      ((run g₂ t).docPart).map stripGenerated ∧
    (∀ d, (run g₁ t).docPart = some d → d.generated = g₁) := by
  constructor
  · rw [run, run]
    by_cases he : t.isEmpty = true
    · rw [if_pos he, if_pos he]
    · rw [if_neg he, if_neg he]
      cases hs : processSpy t
      · rfl
      · rfl
  · intro d hd
    rw [run] at hd
    by_cases he : t.isEmpty = true
    · rw [if_pos he] at hd
      cases hd
    · rw [if_neg he] at hd
      cases hs : processSpy t with
      | none => rw [hs] at hd; cases hd
      | some rs =>
        rw [hs] at hd
        injection hd with hd
        rw [← hd]

/-- C10: in the output document, `dates` and `returns` have equal length
for the benchmark entry and for every `tickers` entry, and the date at each
index labels the return at the same index: at every position both arrays
project the same entry of one underlying return series — the date is that
entry's month label, the return that entry's rounded value. -/
theorem spec_dates_returns_indexwise (t : PriceTable) (rs : List (MDate × ℚ))
    (hspy : processSpy t = some rs) :
    ((ymDates rs).length = (roundedReturns rs).length ∧
      datesLabelReturns rs (ymDates rs) (roundedReturns rs)) ∧
    ∀ e, e ∈ tickerData t → e.2.dates.length = e.2.returns.length ∧
      ∃ ret, processTicker t e.1 = TickerResult.ok ret ∧
        datesLabelReturns ret e.2.dates e.2.returns := by
  constructor
  · exact ⟨by rw [ymDates, roundedReturns, List.length_map, List.length_map],
      datesLabelReturns_of rs⟩
  · intro e he
    obtain ⟨ret, hok, hd, hr⟩ := mem_tickerData_inv t e.1 e.2
      (by rw [show ((e.1, e.2) : _ × _) = e from rfl]; exact he)
    refine ⟨?_, ret, hok, ?_⟩
    · rw [hd, hr, ymDates, roundedReturns, List.length_map, List.length_map]
    · rw [hd, hr]
      exact datesLabelReturns_of ret

/-- C10 witness: the sample benchmark entry has matching lengths and its
dates label its returns index by index. -/
theorem spec_dates_returns_indexwise_witness :
    processSpy wTable = some wRS ∧
      datesLabelReturns wRS (ymDates wRS) (roundedReturns wRS) :=
  ⟨rfl, (spec_dates_returns_indexwise wTable wRS rfl).1.2⟩

end PortfolioBuilder
